import Mathlib

/-!
Verification of the journald logger module (`journald.hpp` and its
companion implementation).  Streams are modelled as lists of characters,
C byte strings as lists of naturals.
-/

namespace Journald

/-- Modelled from the spec: the LineSplitter scan (implemented in
`journald.cpp`, declared as `JournaldLoggerProcess::loop`).  Splits a byte
sequence at newline characters, returning the complete lines (terminators
excluded) and the unterminated remainder after the last delimiter. -/
def splitLines : List Char → List (List Char) × List Char
  | [] => ([], [])
  | c :: cs =>
    let p := splitLines cs
    if c = '\n' then ([] :: p.1, p.2)
    else
      match p with
      | ([], r) => ([], c :: r)
      | (l :: ls, r) => ((c :: l) :: ls, r)

/-- Modelled from the spec: one `feed` call appends the chunk to the
retained tail and scans for newlines. -/
def feed (tail chunk : List Char) : List (List Char) × List Char :=
  splitLines (tail ++ chunk)

/-- Modelled from the spec: folding a sequence of `feed` calls over the
splitter state, collecting all yielded lines and the final tail. -/
def processChunks (tail : List Char) : List (List Char) → List (List Char) × List Char
  | [] => ([], tail)
  | c :: cs =>
    let p1 := feed tail c
    let p2 := processChunks p1.2 cs
    (p1.1 ++ p2.1, p2.2)

/-- Modelled from the spec: `flushRemainder`, called once at stream
closure; yields the tail as a final line when non-empty. -/
def flushRemainder (tail : List Char) : List (List Char) :=
  if tail = [] then [] else [tail]

/-- Running the splitter over a whole partition of the input: all feeds,
then one `flushRemainder`. -/
def runSplitter (chunks : List (List Char)) : List (List Char) :=
  let p := processChunks [] chunks
  p.1 ++ flushRemainder p.2

/-- The byte stream `L1\n L2\n ... Ln\n` built from newline-free lines. -/
def terminatedLines (lines : List (List Char)) : List Char :=
  (lines.map (fun l => l ++ ['\n'])).flatten

theorem splitLines_cons_newline (cs : List Char) :
    splitLines ('\n' :: cs) = ([] :: (splitLines cs).1, (splitLines cs).2) := by
  simp [splitLines]

theorem splitLines_cons_nil (c : Char) (cs r : List Char)
    (h : c ≠ '\n') (hp : splitLines cs = ([], r)) :
    splitLines (c :: cs) = ([], c :: r) := by
  simp [splitLines, h, hp]

theorem splitLines_cons_cons (c : Char) (cs : List Char) (l : List Char)
    (ls : List (List Char)) (r : List Char)
    (h : c ≠ '\n') (hp : splitLines cs = (l :: ls, r)) :
    splitLines (c :: cs) = ((c :: l) :: ls, r) := by
  simp [splitLines, h, hp]

theorem splitLines_snd_no_newline (xs : List Char) : '\n' ∉ (splitLines xs).2 := by
  induction xs with
  | nil => simp [splitLines]
  | cons c cs ih =>
    by_cases h : c = '\n'
    · subst h
      rw [splitLines_cons_newline]
      exact ih
    · rcases hp : splitLines cs with ⟨ls, r⟩
      rw [hp] at ih
      cases ls with
      | nil =>
        rw [splitLines_cons_nil c cs r h hp]
        intro hmem
        rcases List.mem_cons.mp hmem with h1 | h1
        · exact h h1.symm
        · exact ih h1
      | cons l ls' =>
        rw [splitLines_cons_cons c cs l ls' r h hp]
        exact ih

theorem splitLines_append (xs ys : List Char) :
    splitLines (xs ++ ys) =
      ((splitLines xs).1 ++ (splitLines ((splitLines xs).2 ++ ys)).1,
       (splitLines ((splitLines xs).2 ++ ys)).2) := by
  induction xs with
  | nil => simp [splitLines]
  | cons c cs ih =>
    by_cases h : c = '\n'
    · subst h
      rw [List.cons_append, splitLines_cons_newline, splitLines_cons_newline, ih]
      simp
    · rcases hp : splitLines cs with ⟨ls, r⟩
      cases ls with
      | nil =>
        rw [hp] at ih
        have hih : splitLines (cs ++ ys) = splitLines (r ++ ys) := by
          rw [ih]
          simp
        rw [splitLines_cons_nil c cs r h hp, List.cons_append]
        simp only [List.nil_append, List.cons_append]
        rcases hq : splitLines (r ++ ys) with ⟨ms, t⟩
        cases ms with
        | nil =>
          rw [splitLines_cons_nil c (cs ++ ys) t h (by rw [hih, hq]),
              splitLines_cons_nil c (r ++ ys) t h hq]
        | cons m ms' =>
          rw [splitLines_cons_cons c (cs ++ ys) m ms' t h (by rw [hih, hq]),
              splitLines_cons_cons c (r ++ ys) m ms' t h hq]
      | cons l ls' =>
        rw [hp] at ih
        simp only [List.cons_append] at ih
        rw [List.cons_append,
            splitLines_cons_cons c (cs ++ ys) l (ls' ++ (splitLines (r ++ ys)).1)
              (splitLines (r ++ ys)).2 h ih,
            splitLines_cons_cons c cs l ls' r h hp]
        simp

theorem splitLines_no_newline (r : List Char) (h : '\n' ∉ r) :
    splitLines r = ([], r) := by
  induction r with
  | nil => simp [splitLines]
  | cons c cs ih =>
    have hc : c ≠ '\n' := fun hc => h (hc ▸ List.mem_cons_self c cs)
    have hcs : '\n' ∉ cs := fun hm => h (List.mem_cons_of_mem c hm)
    exact splitLines_cons_nil c cs cs hc (ih hcs)

theorem splitLines_line (l t : List Char) (h : '\n' ∉ l) :
    splitLines (l ++ '\n' :: t) = (l :: (splitLines t).1, (splitLines t).2) := by
  induction l with
  | nil => simp [splitLines_cons_newline]
  | cons c cs ih =>
    have hc : c ≠ '\n' := fun hc => h (hc ▸ List.mem_cons_self c cs)
    have hcs : '\n' ∉ cs := fun hm => h (List.mem_cons_of_mem c hm)
    rw [List.cons_append,
        splitLines_cons_cons c (cs ++ '\n' :: t) cs (splitLines t).1 (splitLines t).2
          hc (ih hcs)]

theorem splitLines_terminated (lines : List (List Char)) (rem : List Char)
    (hlines : ∀ l ∈ lines, '\n' ∉ l) (hrem : '\n' ∉ rem) :
    splitLines (terminatedLines lines ++ rem) = (lines, rem) := by
  induction lines with
  | nil => simp [terminatedLines, splitLines_no_newline rem hrem]
  | cons l ls ih =>
    have hl : '\n' ∉ l := hlines l (List.mem_cons_self l ls)
    have hls : ∀ x ∈ ls, '\n' ∉ x := fun x hx => hlines x (List.mem_cons_of_mem l hx)
    have heq : terminatedLines (l :: ls) ++ rem = l ++ '\n' :: (terminatedLines ls ++ rem) := by
      simp [terminatedLines]
    rw [heq, splitLines_line _ _ hl, ih hls]

theorem processChunks_join (tail : List Char) (chunks : List (List Char))
    (htail : '\n' ∉ tail) :
    processChunks tail chunks =
      ((splitLines (tail ++ chunks.flatten)).1, (splitLines (tail ++ chunks.flatten)).2) := by
  induction chunks generalizing tail with
  | nil => simp [processChunks, splitLines_no_newline tail htail]
  | cons c cs ih =>
    have h1 : '\n' ∉ (splitLines (tail ++ c)).2 := splitLines_snd_no_newline _
    simp only [processChunks, feed, List.flatten_cons]
    rw [ih _ h1]
    have heq : tail ++ (c ++ cs.flatten) = (tail ++ c) ++ cs.flatten := by simp
    rw [heq, splitLines_append (tail ++ c) cs.flatten]

/-- C1: for every partition of a byte stream `L1\n ... Ln\n Lrem` into feed
chunks, the lines yielded across all feeds plus one `flushRemainder` are
exactly `L1, ..., Ln` (and `Lrem` when non-empty), terminators excluded:
no byte is dropped or duplicated and no partial line is yielded. -/
theorem lineSplitter_correct (chunks lines : List (List Char)) (rem : List Char)
    (hlines : ∀ l ∈ lines, '\n' ∉ l) (hrem : '\n' ∉ rem)
    (hjoin : chunks.flatten = terminatedLines lines ++ rem) :
    runSplitter chunks = lines ++ (if rem = [] then [] else [rem]) := by
  unfold runSplitter
  rw [processChunks_join [] chunks (by simp)]
  simp only [List.nil_append]
  rw [hjoin, splitLines_terminated lines rem hlines hrem]
  rfl

/-- Witness for C1 at a concrete partition that splits inside a line and
exactly at a delimiter. -/
theorem lineSplitter_correct_witness :
    (∀ l ∈ ([['h', 'e', 'l'], ['w', 'o']] : List (List Char)), '\n' ∉ l) ∧
    '\n' ∉ (['t', 'a'] : List Char) ∧
    ([['h', 'e'], ['l', '\n', 'w'], [], ['o', '\n'], ['t', 'a']] :
        List (List Char)).flatten =
      terminatedLines [['h', 'e', 'l'], ['w', 'o']] ++ ['t', 'a'] ∧
    runSplitter [['h', 'e'], ['l', '\n', 'w'], [], ['o', '\n'], ['t', 'a']] =
      [['h', 'e', 'l'], ['w', 'o']] ++
        (if (['t', 'a'] : List Char) = [] then [] else [['t', 'a']]) :=
  ⟨by decide, by decide, by decide,
   lineSplitter_correct _ _ _ (by decide) (by decide) (by decide)⟩

/-- C2: at stream closure `flushRemainder` is applied once to the retained
tail: when the bytes after the last newline are non-empty it yields exactly
that remainder as one final line, and when the stream ended exactly on a
newline (or was empty) it yields nothing, so no trailing data is lost. -/
theorem flushRemainder_correct (chunks lines : List (List Char)) (rem : List Char)
    (hlines : ∀ l ∈ lines, '\n' ∉ l) (hrem : '\n' ∉ rem)
    (hjoin : chunks.flatten = terminatedLines lines ++ rem) :
    (processChunks [] chunks).2 = rem ∧
    (rem ≠ [] → flushRemainder (processChunks [] chunks).2 = [rem]) ∧
    (rem = [] → flushRemainder (processChunks [] chunks).2 = []) := by
  have htail : (processChunks [] chunks).2 = rem := by
    rw [processChunks_join [] chunks (by simp)]
    simp only [List.nil_append]
    rw [hjoin, splitLines_terminated lines rem hlines hrem]
  refine ⟨htail, ?_, ?_⟩
  · intro hne
    rw [htail]
    simp [flushRemainder, hne]
  · intro he
    rw [htail]
    simp [flushRemainder, he]

/-- Witness for C2 at a stream ending exactly on a newline. -/
theorem flushRemainder_correct_witness :
    (∀ l ∈ ([['a'], ['b', 'c']] : List (List Char)), '\n' ∉ l) ∧
    '\n' ∉ ([] : List Char) ∧
    ([['a', '\n', 'b'], ['c', '\n']] : List (List Char)).flatten =
      terminatedLines [['a'], ['b', 'c']] ++ [] ∧
    ((processChunks [] [['a', '\n', 'b'], ['c', '\n']]).2 = [] ∧
     (([] : List Char) ≠ [] →
        flushRemainder (processChunks [] [['a', '\n', 'b'], ['c', '\n']]).2 = [[]]) ∧
     (([] : List Char) = [] →
        flushRemainder (processChunks [] [['a', '\n', 'b'], ['c', '\n']]).2 = [])) :=
  ⟨by decide, by decide, by decide,
   flushRemainder_correct [['a', '\n', 'b'], ['c', '\n']] [['a'], ['b', 'c']] []
     (by decide) (by decide) (by decide)⟩

/-- Modelled from the spec: `JournaldLoggerProcess::write_logrotate`
followed by the threshold check (implemented in `journald.cpp`).  Adds the
written byte count to `bytesWritten`; when the total strictly exceeds
`maxSize` it invokes `rotate`, which resets `bytesWritten` to 0.  Returns
the new `bytesWritten` and whether rotation was invoked. -/
def write_logrotate (maxSize bytesWritten n : Nat) : Nat × Bool :=
  let b := bytesWritten + n
  if b > maxSize then (0, true) else (b, false)

/-- Modelled from the spec: the file sink processing a whole sequence of
writes, recording after each one the new `bytesWritten` and whether
rotation was invoked. -/
def runWrites (maxSize : Nat) : Nat → List Nat → List (Nat × Bool)
  | _, [] => []
  | st, n :: ns =>
    let p := write_logrotate maxSize st n
    p :: runWrites maxSize p.1 ns

theorem runWrites_rotated_resets (maxSize st : Nat) (ws : List Nat) :
    ∀ e ∈ runWrites maxSize st ws, e.2 = true → e.1 = 0 := by
  induction ws generalizing st with
  | nil => simp [runWrites]
  | cons n ns ih =>
    intro e he hr
    simp only [runWrites, List.mem_cons] at he
    rcases he with he | he
    · subst he
      unfold write_logrotate at hr ⊢
      by_cases hb : st + n > maxSize
      · simp [hb]
      · simp [hb] at hr
    · exact ih _ e he hr

/-- C3: rotation is invoked by a write if and only if the cumulative bytes
written since the last rotation (the pending bytes plus this write)
strictly exceed `maxSize`; when no rotation happens the counter equals that
cumulative total, and immediately after any rotation in a write sequence
`bytesWritten` is 0. -/
theorem rotation_threshold (maxSize bytesWritten n st0 : Nat)
    (pending ws : List Nat) (h : bytesWritten = pending.sum) :
    ((write_logrotate maxSize bytesWritten n).2 = true ↔
      (pending ++ [n]).sum > maxSize) ∧
    ((write_logrotate maxSize bytesWritten n).2 = true →
      (write_logrotate maxSize bytesWritten n).1 = 0) ∧
    ((write_logrotate maxSize bytesWritten n).2 = false →
      (write_logrotate maxSize bytesWritten n).1 = (pending ++ [n]).sum) ∧
    (∀ e ∈ runWrites maxSize st0 ws, e.2 = true → e.1 = 0) := by
  subst h
  have hsum : (pending ++ [n]).sum = pending.sum + n := by simp
  refine ⟨?_, ?_, ?_, runWrites_rotated_resets maxSize st0 ws⟩
  · by_cases hb : pending.sum + n > maxSize
    · simp [write_logrotate, hb, hsum]
    · simp [write_logrotate, hb, hsum]
  · by_cases hb : pending.sum + n > maxSize
    · simp [write_logrotate, hb]
    · simp [write_logrotate, hb]
  · by_cases hb : pending.sum + n > maxSize
    · simp [write_logrotate, hb]
    · simp [write_logrotate, hb, hsum]

/-- Witness for C3: 90 pending bytes, a 20-byte write, threshold 100. -/
theorem rotation_threshold_witness :
    (90 : Nat) = ([50, 40] : List Nat).sum ∧
    (((write_logrotate 100 90 20).2 = true ↔
        (([50, 40] : List Nat) ++ [20]).sum > 100) ∧
     ((write_logrotate 100 90 20).2 = true → (write_logrotate 100 90 20).1 = 0) ∧
     ((write_logrotate 100 90 20).2 = false →
        (write_logrotate 100 90 20).1 = (([50, 40] : List Nat) ++ [20]).sum) ∧
     (∀ e ∈ runWrites 100 0 [60, 50, 10], e.2 = true → e.1 = 0)) :=
  ⟨by decide, rotation_threshold 100 90 20 0 [50, 40] [60, 50, 10] (by decide)⟩

/-- The two sinks a line can be dispatched to. -/
inductive Sink where
  | structured
  | file
deriving DecidableEq

/-- Modelled from the spec: dispatch of one yielded line (with index `i` in
the input order) to the enabled sinks, in the fixed order structured
(journald) before file. -/
def dispatchLine (s f : Bool) (i : Nat) : List (Sink × Nat) :=
  (if s then [(Sink.structured, i)] else []) ++ (if f then [(Sink.file, i)] else [])

/-- Modelled from the spec: the pipeline loop dispatching the yielded lines
in input order; the trace of sink events. -/
def pipelineTrace (s f : Bool) (lines : List (List Char)) : List (Sink × Nat) :=
  ((List.range lines.length).map (dispatchLine s f)).flatten

theorem dispatchLine_snd (s f : Bool) (i : Nat) (x : Sink × Nat)
    (hx : x ∈ dispatchLine s f i) : x.2 = i := by
  unfold dispatchLine at hx
  rcases List.mem_append.mp hx with h | h
  · cases s with
    | false => simp at h
    | true => rw [List.mem_singleton.mp h]
  · cases f with
    | false => simp at h
    | true => rw [List.mem_singleton.mp h]

/-- C4: along the pipeline trace, any event of an earlier line precedes
every event of a later line (so for consecutive lines A then B each sink
sees A strictly before B), and the only two events of one line occur as
structured before file. -/
theorem sink_ordering (s f : Bool) (lines : List (List Char)) :
    (pipelineTrace s f lines).Pairwise
      (fun e1 e2 => e1.2 < e2.2 ∨
        (e1.2 = e2.2 ∧ e1.1 = Sink.structured ∧ e2.1 = Sink.file)) := by
  unfold pipelineTrace
  rw [List.pairwise_flatten]
  refine ⟨?_, ?_⟩
  · intro l hl
    simp only [List.mem_map] at hl
    obtain ⟨i, _, rfl⟩ := hl
    unfold dispatchLine
    cases s <;> cases f <;> simp
  · rw [List.pairwise_map]
    have hr : (List.range lines.length).Pairwise (· < ·) := List.pairwise_lt_range _
    refine hr.imp ?_
    intro i j hij
    intro x hx y hy
    left
    rw [dispatchLine_snd s f i x hx, dispatchLine_snd s f j y hy]
    exact hij

/-- The single completion outcome of the pipeline. -/
inductive Outcome where
  | success
  | fatal
deriving DecidableEq

/-- Modelled from the spec: the pipeline loop over the yielded lines.  For
line `i` the structured sink (when enabled) is attempted once; its result
`jOk i` is a recoverable error when false, so the loop records it and
continues.  A file-sink failure (`fOk i` false, file sink enabled) is
fatal and terminates the pipeline.  Returns the journald attempt trace
(line index, success) and the final outcome. -/
def runLoop (jOk fOk : Nat → Bool) (s f : Bool) : Nat → List (List Char) → List (Nat × Bool) × Outcome
  | _, [] => ([], Outcome.success)
  | i, _ :: rest =>
    let attempts := if s then [(i, jOk i)] else []
    if f && !(fOk i) then (attempts, Outcome.fatal)
    else
      let p := runLoop jOk fOk s f (i + 1) rest
      (attempts ++ p.1, p.2)

/-- C5: when file writes succeed, journald write failures are recoverable:
the pipeline processes every line (each attempted on the structured sink
exactly once, in order, with no retry), finishes with success, and its
final outcome is the same as if every structured write had succeeded. -/
theorem journald_recoverable (jOk fOk : Nat → Bool) (s f : Bool) (i : Nat)
    (lines : List (List Char)) (hf : ∀ k, fOk k = true) :
    (runLoop jOk fOk s f i lines).2 = Outcome.success ∧
    ((runLoop jOk fOk s f i lines).1.map Prod.fst =
      if s then List.range' i lines.length else []) ∧
    (runLoop jOk fOk s f i lines).2 = (runLoop (fun _ => true) fOk s f i lines).2 := by
  induction lines generalizing i with
  | nil => cases s <;> simp [runLoop]
  | cons l rest ih =>
    have hcond : (f && !(fOk i)) = false := by rw [hf i]; cases f <;> rfl
    obtain ⟨ih1, ih2, ih3⟩ := ih (i + 1)
    refine ⟨?_, ?_, ?_⟩
    · simp only [runLoop, hcond, Bool.false_eq_true, if_false]
      exact ih1
    · simp only [runLoop, hcond, Bool.false_eq_true, if_false, List.map_append]
      rw [ih2]
      cases s with
      | false => simp
      | true => simp [List.range'_succ]
    · simp only [runLoop, hcond, Bool.false_eq_true, if_false]
      rw [ih3]

/-- Witness for C5: three lines, the structured write of line 1 fails, all
file writes succeed; the pipeline still processes lines 0, 1, 2 and ends
in success. -/
theorem journald_recoverable_witness :
    (∀ k : Nat, (fun _ : Nat => true) k = true) ∧
    ((runLoop (fun k => decide (k ≠ 1)) (fun _ => true) true true 0
        [['a'], ['b'], ['c']]).2 = Outcome.success ∧
     ((runLoop (fun k => decide (k ≠ 1)) (fun _ => true) true true 0
        [['a'], ['b'], ['c']]).1.map Prod.fst =
       if true then List.range' 0 [['a'], ['b'], ['c']].length else []) ∧
     (runLoop (fun k => decide (k ≠ 1)) (fun _ => true) true true 0
        [['a'], ['b'], ['c']]).2 =
       (runLoop (fun _ => true) (fun _ => true) true true 0
        [['a'], ['b'], ['c']]).2) :=
  ⟨fun _ => rfl,
   journald_recoverable (fun k => decide (k ≠ 1)) (fun _ => true) true true 0
     [['a'], ['b'], ['c']] (fun _ => rfl)⟩

/-- Embedding of the validator of `--logrotate_max_size` (`journald.hpp`,
lines 92-104): the value is rejected with an error when it is below one
memory page, accepted otherwise. -/
def validate_logrotate_max_size (pagesize value : Nat) : Option String :=
  if value < pagesize then
    some ("Expected --logrotate_max_size of at least " ++ toString pagesize ++ " bytes")
  else
    none

/-- C6: `--logrotate_max_size` passes validation if and only if it is at
least one filesystem page in bytes; any smaller value yields a validation
error. -/
theorem logrotate_max_size_validation (pagesize value : Nat) :
    (validate_logrotate_max_size pagesize value = none ↔ pagesize ≤ value) ∧
    (value < pagesize → (validate_logrotate_max_size pagesize value).isSome = true) := by
  unfold validate_logrotate_max_size
  by_cases h : value < pagesize
  · rw [if_pos h]
    exact ⟨⟨fun hc => Option.noConfusion hc, fun hle => absurd hle (by omega)⟩,
           fun _ => rfl⟩
  · rw [if_neg h]
    exact ⟨⟨fun _ => by omega, fun _ => rfl⟩, fun hlt => absurd hlt h⟩

/-- Witness for C6: one byte below a 4096-byte page is rejected. -/
theorem logrotate_max_size_validation_witness :
    (validate_logrotate_max_size 4096 4096 = none ↔ 4096 ≤ 4096) ∧
    (4095 < 4096 → (validate_logrotate_max_size 4096 4095).isSome = true) :=
  ⟨(logrotate_max_size_validation 4096 4096).1,
   (logrotate_max_size_validation 4096 4095).2⟩

/-- Embedding of `path::absolute` as used by the validator: a path is
absolute when it starts with the path separator. -/
def path_absolute (s : List Char) : Bool :=
  match s with
  | [] => false
  | c :: _ => c = '/'

/-- Embedding of the validator of `--logrotate_filename` (`journald.hpp`,
lines 117-135): a missing value is an error, a non-absolute path is an
error, an absolute path is accepted. -/
def validate_logrotate_filename (value : Option (List Char)) : Option String :=
  match value with
  | none => some "Missing required option --logrotate_filename"
  | some v =>
    if path_absolute v then none
    else some "Expected --logrotate_filename to be an absolute path"

/-- C7: `--logrotate_filename` is required and must be an absolute path: a
missing value is a startup validation error, and a supplied value passes
validation if and only if it is absolute. -/
theorem logrotate_filename_validation :
    (validate_logrotate_filename none).isSome = true ∧
    (∀ v, validate_logrotate_filename (some v) = none ↔ path_absolute v = true) := by
  refine ⟨rfl, ?_⟩
  intro v
  unfold validate_logrotate_filename
  by_cases h : path_absolute v = true
  · simp [h]
  · simp [h]

/-- Embedding of the validator of `--destination_type` (`journald.hpp`,
lines 40-54): any value other than the three recognized destinations is
rejected. -/
def validate_destination_type (value : String) : Option String :=
  if value ≠ "journald" ∧ value ≠ "logrotate" ∧ value ≠ "journald+logrotate" then
    some ("Invalid destination type: " ++ value)
  else
    none

/-- C8: `--destination_type` passes validation if and only if it is one of
exactly the three values `journald` (structured only), `logrotate` (file
only) or `journald+logrotate` (both sinks); every other string is
rejected. -/
theorem destination_type_validation (value : String) :
    validate_destination_type value = none ↔
      (value = "journald" ∨ value = "logrotate" ∨ value = "journald+logrotate") := by
  unfold validate_destination_type
  by_cases h1 : value = "journald"
  · simp [h1]
  · by_cases h2 : value = "logrotate"
    · simp [h2]
    · by_cases h3 : value = "journald+logrotate"
      · simp [h3]
      · simp [h1, h2, h3]

/-- Modelled from the spec: per-byte ASCII uppercase conversion applied to
label keys (the NOTE on `--journald_labels`, `journald.hpp` lines 56-90;
the conversion itself is implemented in `journald.cpp`). -/
def upperByte (b : Nat) : Nat :=
  if 97 ≤ b ∧ b ≤ 122 then b - 32 else b

/-- Uppercase conversion of a whole byte string. -/
def upperBytes (bs : List Nat) : List Nat :=
  bs.map upperByte

/-- The bytes of a string literal. -/
def strBytes (s : String) : List Nat :=
  s.toList.map Char.toNat

/-- Modelled from the spec: a journald field entry `KEY=value` with the
key uppercased (61 is the byte of the equals sign). -/
def labelField (key value : List Nat) : List Nat :=
  upperBytes key ++ [61] ++ value

/-- Modelled from the spec: the `MESSAGE` field holding one line of text. -/
def msgField (msg : List Nat) : List Nat :=
  strBytes "MESSAGE=" ++ msg

/-- Modelled from the spec: the entry array handed to `sd_journal_sendv`
(`JournaldLoggerProcess::entries`, `journald.hpp` lines 214-219): one field
per configured label followed by the `MESSAGE` field for the current
line. -/
def mkEntries (labels : List (List Nat × List Nat)) (msg : List Nat) : List (List Nat) :=
  labels.map (fun p => labelField p.1 p.2) ++ [msgField msg]

theorem upperByte_idem (b : Nat) : upperByte (upperByte b) = upperByte b := by
  unfold upperByte
  by_cases h : 97 ≤ b ∧ b ≤ 122
  · rw [if_pos h, if_neg (by omega)]
  · rw [if_neg h, if_neg h]

/-- C9: uppercase normalization of a label key is idempotent, and a label
set built from `{key: env, value: prod}` exposes the field `ENV=prod` on
every emitted record. -/
theorem label_normalization :
    (∀ bs, upperBytes (upperBytes bs) = upperBytes bs) ∧
    labelField (strBytes "env") (strBytes "prod") = strBytes "ENV=prod" ∧
    (∀ msg, strBytes "ENV=prod" ∈ mkEntries [(strBytes "env", strBytes "prod")] msg) := by
  refine ⟨?_, by decide, ?_⟩
  · intro bs
    unfold upperBytes
    rw [List.map_map]
    exact List.map_congr_left fun a _ => upperByte_idem a
  · intro msg
    have h : labelField (strBytes "env") (strBytes "prod") = strBytes "ENV=prod" := by
      decide
    simp only [mkEntries, List.map_cons, List.map_nil, List.cons_append, List.nil_append]
    rw [← h]
    exact List.mem_cons_self _ _

/-- C10: every structured record write hands the backend one entry more
than the number of configured labels; the label entries do not depend on
the message, so only the last entry (the `MESSAGE` field of the current
line) changes between writes. -/
theorem entries_invariant (labels : List (List Nat × List Nat)) (m1 m2 : List Nat) :
    (mkEntries labels m1).length = labels.length + 1 ∧
    (mkEntries labels m1).dropLast = (mkEntries labels m2).dropLast ∧
    (mkEntries labels m1).getLast? = some (msgField m1) := by
  unfold mkEntries
  refine ⟨by simp, ?_, ?_⟩
  · rw [List.dropLast_concat, List.dropLast_concat]
  · rw [List.getLast?_concat]
